import Mathlib

/-!
Verification development for the corpus normalization, statistics and sharding
pipeline of the machine-translation preprocessing repository.

The Python sources (`src/preprocess_data.py`, `src/download_data.py`,
`src/utils.py`) are shallowly embedded below.  Strings are modelled as
`List Char`; Python `dict`s (which preserve insertion order) are modelled as
association lists; functions that can fail an `assert` are modelled with
`Option`/`Bool` results.  External library calls (`BeautifulSoup`,
`unicodedata`) are modelled on the character set exercised by this pipeline,
as documented at the respective definitions.
-/

namespace MT

/-- Python whitespace characters recognised by `str.split()` / `str.strip()`. -/
def isWs (c : Char) : Bool :=
  c = ' ' || c = '\t' || c = '\n' || c = '\x0d' || c = '\x0b' || c = '\x0c'

/-- Auxiliary for `splitSp`: accumulates the current (reversed) field. -/
def splitSpAux (cur : List Char) : List Char → List (List Char)
  | [] => [cur.reverse]
  | c :: cs => if c = ' ' then cur.reverse :: splitSpAux [] cs else splitSpAux (c :: cur) cs

/-- Embeds Python `text.split(" ")`: splits at every single space, keeping
empty fields (`"".split(" ") == ['']`, `"a  b".split(" ") == ['a','','b']`). -/
def splitSp (l : List Char) : List (List Char) := splitSpAux [] l

/-- Auxiliary for `splitWs`. -/
def splitWsAux (cur : List Char) : List Char → List (List Char)
  | [] => if cur = [] then [] else [cur.reverse]
  | c :: cs =>
      if isWs c then
        (if cur = [] then splitWsAux [] cs else cur.reverse :: splitWsAux [] cs)
      else splitWsAux (c :: cur) cs

/-- Embeds Python `text.split()`: splits on runs of whitespace, producing no
empty fields (`"".split() == []`). -/
def splitWs (l : List Char) : List (List Char) := splitWsAux [] l

/-- Embeds Python `" ".join(words)`. -/
def joinSp : List (List Char) → List Char
  | [] => []
  | [w] => w
  | w :: w' :: ws => w ++ ' ' :: joinSp (w' :: ws)

/-- Embeds Python `text.strip()`. -/
def pyStrip (l : List Char) : List Char :=
  ((l.dropWhile isWs).reverse.dropWhile isWs).reverse

/-- Embeds Python `str.lower()` on a character, for ASCII letters and the
accented Latin letters appearing in this pipeline's character classes. -/
def lowerChar (c : Char) : Char :=
  if 'A' ≤ c && c ≤ 'Z' then Char.ofNat (c.toNat + 32)
  else if c = 'Á' then 'á' else if c = 'À' then 'à' else if c = 'Â' then 'â'
  else if c = 'Ä' then 'ä' else if c = 'Æ' then 'æ' else if c = 'Ç' then 'ç'
  else if c = 'É' then 'é' else if c = 'È' then 'è' else if c = 'Ê' then 'ê'
  else if c = 'Ë' then 'ë' else if c = 'Í' then 'í' else if c = 'Î' then 'î'
  else if c = 'Ï' then 'ï' else if c = 'Ñ' then 'ñ' else if c = 'Ó' then 'ó'
  else if c = 'Ô' then 'ô' else if c = 'Ö' then 'ö' else if c = 'Œ' then 'œ'
  else if c = 'Ú' then 'ú' else if c = 'Û' then 'û' else if c = 'Ü' then 'ü'
  else if c = 'Ù' then 'ù' else c

/-- Embeds Python `text.lower()`. -/
def lowerStr (l : List Char) : List Char := l.map lowerChar

/-- `prefOf pat l` is true when `pat` is a prefix of `l`. -/
def prefOf : List Char → List Char → Bool
  | [], _ => true
  | _ :: _, [] => false
  | p :: ps, c :: cs => p = c && prefOf ps cs

/-- Worker for `replaceSubstr`: the fuel, always initialised to the list
length (one unit per consumed character), makes the recursion structural. -/
def replaceSubstrGo (pat rep : List Char) : Nat → List Char → List Char
  | _, [] => []
  | 0, l => l
  | fuel + 1, c :: cs =>
      if pat ≠ [] && prefOf pat (c :: cs) then
        rep ++ replaceSubstrGo pat rep fuel ((c :: cs).drop pat.length)
      else
        c :: replaceSubstrGo pat rep fuel cs

/-- Embeds Python `text.replace(pat, rep)`: replaces all non-overlapping
occurrences of `pat`, scanning left to right. -/
def replaceSubstr (pat rep l : List Char) : List Char :=
  replaceSubstrGo pat rep l.length l

/-- Worker for `collapseRuns`; `inRun` records whether the previous character
was part of a disallowed run (whose single replacement space was already
emitted). -/
def collapseRunsAux (allowed : Char → Bool) (inRun : Bool) : List Char → List Char
  | [] => []
  | c :: cs =>
      if allowed c then c :: collapseRunsAux allowed false cs
      else if inRun then collapseRunsAux allowed true cs
      else ' ' :: collapseRunsAux allowed true cs

/-- Embeds `re.sub(r"[^…]+", " ", text)`: every maximal run of characters not
satisfying `allowed` is replaced by a single space. -/
def collapseRuns (allowed : Char → Bool) (l : List Char) : List Char :=
  collapseRunsAux allowed false l

/-- Worker for `collapseDots`; `inRun` records whether the previous character
was a period (already emitted as the run's single replacement). -/
def collapseDotsAux (inRun : Bool) : List Char → List Char
  | [] => []
  | c :: cs =>
      if c = '.' then
        (if inRun then collapseDotsAux true cs else '.' :: collapseDotsAux true cs)
      else c :: collapseDotsAux false cs

/-- Embeds `re.sub(r"\.{2,}", ".", text)`: every maximal run of two or more
periods becomes a single period (runs of one are unchanged either way). -/
def collapseDots (l : List Char) : List Char := collapseDotsAux false l

/-- The ASCII uppercase counterpart of an ASCII lowercase letter. -/
def upperOf (c : Char) : Char := Char.ofNat (c.toNat - 32)

/-- Embeds one of the ordinal fixes `re.sub(r"(\d)XY", r"\1 XY", text, flags=re.I)`
for a lowercase two-letter suffix `⟨a, b⟩` (`th`, `st`, `rd`, `nd`): a decimal
digit immediately followed by the suffix (either case) gets a space inserted,
the replacement emitting the lowercase suffix; the scan is left-to-right and
resumes after each match.  (`\d` is modelled as an ASCII digit: at the point of
use the text has already passed the character policy, which admits `0-9` only.) -/
def subOrd (a b : Char) : List Char → List Char
  | d :: x :: y :: rest =>
      if ('0' ≤ d && d ≤ '9') && (x = a || x = upperOf a) && (y = b || y = upperOf b) then
        d :: ' ' :: a :: b :: subOrd a b rest
      else d :: subOrd a b (x :: y :: rest)
  | l => l

/-- Embeds Python `text.replace(c, " " + c + " ")` for a single character:
every occurrence of `c` is surrounded by spaces. -/
def replaceChar (c : Char) : List Char → List Char
  | [] => []
  | d :: ds =>
      if d = c then ' ' :: c :: ' ' :: replaceChar c ds
      else d :: replaceChar c ds

/-- The punctuation string of the source,
`"-!$&(),./%:;?!çàâæéèêëîïôöûüù'€\"*"`, as a character list (the `'!'`
really does occur twice in the source, so `'!'` is padded twice in turn). -/
def punctuations : List Char :=
  ['-', '!', '$', '&', '(', ')', ',', '.', '/', '%', ':', ';', '?', '!',
   'ç', 'à', 'â', 'æ', 'é', 'è', 'ê', 'ë', 'î', 'ï', 'ô', 'ö', 'û', 'ü', 'ù',
   '\'', '€', '"', '*']

/-- Embeds the loop `for character in punctuations: text = text.replace(...)`:
sequentially pads every punctuation character with spaces. -/
def padPunct (t : List Char) : List Char :=
  punctuations.foldl (fun s c => replaceChar c s) t

/-- Modelled from the Python standard library: `unicodedata.normalize("NFKD", ·)`
on one character, for the precomposed accented Latin letters this pipeline can
produce (lowercasing happens first, so only lowercase forms are listed) and the
identity elsewhere.  Combining marks used: U+0300 grave, U+0301 acute,
U+0302 circumflex, U+0303 tilde, U+0308 diaeresis, U+0327 cedilla. -/
def nfkdChar (c : Char) : List Char :=
  if c = 'á' then ['a', '́'] else if c = 'à' then ['a', '̀']
  else if c = 'â' then ['a', '̂'] else if c = 'ä' then ['a', '̈']
  else if c = 'ç' then ['c', '̧'] else if c = 'é' then ['e', '́']
  else if c = 'è' then ['e', '̀'] else if c = 'ê' then ['e', '̂']
  else if c = 'ë' then ['e', '̈'] else if c = 'í' then ['i', '́']
  else if c = 'î' then ['i', '̂'] else if c = 'ï' then ['i', '̈']
  else if c = 'ñ' then ['n', '̃'] else if c = 'ó' then ['o', '́']
  else if c = 'ô' then ['o', '̂'] else if c = 'ö' then ['o', '̈']
  else if c = 'ú' then ['u', '́'] else if c = 'û' then ['u', '̂']
  else if c = 'ü' then ['u', '̈'] else if c = 'ù' then ['u', '̀']
  else [c]

/-- Modelled from the Python standard library: whether
`unicodedata.category(c) == "Mn"`, for the combining marks `nfkdChar` emits. -/
def isMn (c : Char) : Bool :=
  c = '̀' || c = '́' || c = '̂' || c = '̃' ||
  c = '̈' || c = '̧'

/-- Embeds the `en` branch's
`"".join(c for c in unicodedata.normalize("NFKD", text) if category(c) != "Mn")`. -/
def nfkdStripMarks (t : List Char) : List Char :=
  (t.flatMap nfkdChar).filter (fun c => !isMn c)

/-- The character class of the `en` regex `[^-!$&(),./%0-9:;?a-z€'\"]`:
characters that are kept (everything else collapses to a space). -/
def allowedEn (c : Char) : Bool :=
  c ∈ ['-', '!', '$', '&', '(', ')', ',', '.', '/', '%', ':', ';', '?', '€', '\'', '"']
  || ('0' ≤ c && c ≤ '9') || ('a' ≤ c && c ≤ 'z')

/-- The character class of the `es` regex
`[^-!$&(),./%0-9:;?ÁÉÍÓÚÑÜáéíóúñü¿¡a-z€'\"]`. -/
def allowedEs (c : Char) : Bool :=
  c ∈ ['-', '!', '$', '&', '(', ')', ',', '.', '/', '%', ':', ';', '?',
       'Á', 'É', 'Í', 'Ó', 'Ú', 'Ñ', 'Ü', 'á', 'é', 'í', 'ó', 'ú', 'ñ', 'ü',
       '¿', '¡', '€', '\'', '"']
  || ('0' ≤ c && c ≤ '9') || ('a' ≤ c && c ≤ 'z')

/-- The character class of the `fr` regex
`[^-!$&(),./%0-9:;?!çàâæéèêëîïôöûüù'€\"*]` — note that, unlike the other
languages, it contains no `a-z` range. -/
def allowedFr (c : Char) : Bool :=
  c ∈ ['-', '!', '$', '&', '(', ')', ',', '.', '/', '%', ':', ';', '?',
       'ç', 'à', 'â', 'æ', 'é', 'è', 'ê', 'ë', 'î', 'ï', 'ô', 'ö', 'û', 'ü', 'ù',
       '\'', '€', '"', '*']
  || ('0' ≤ c && c ≤ '9')

/-- The character class of the `de` regex
`[^-!$&(),./%0-9:;?!äöüßœáéíóúñüa-z'€\"*]`. -/
def allowedDe (c : Char) : Bool :=
  c ∈ ['-', '!', '$', '&', '(', ')', ',', '.', '/', '%', ':', ';', '?',
       'ä', 'ö', 'ü', 'ß', 'œ', 'á', 'é', 'í', 'ó', 'ú', 'ñ',
       '\'', '€', '"', '*']
  || ('0' ≤ c && c ≤ '9') || ('a' ≤ c && c ≤ 'z')

/-- The four language codes `preprocess_text`'s assert admits; the valid
values of its `language` argument. -/
inductive Lang
  | en
  | es
  | fr
  | de
deriving DecidableEq

/-- The language-specific character policy of `preprocess_text`: for `en`,
Unicode-decompose (NFKD), drop combining marks, then collapse runs of
characters outside the allow-list to single spaces; for the other languages,
only the run collapsing with that language's allow-list. -/
def charPolicy : Lang → List Char → List Char
  | .en, t => collapseRuns allowedEn (nfkdStripMarks t)
  | .es, t => collapseRuns allowedEs t
  | .fr, t => collapseRuns allowedFr t
  | .de, t => collapseRuns allowedDe t

/-- Embeds `remove_html_markup` of `src/preprocess_data.py`.  The
`BeautifulSoup(text, "lxml").get_text(strip=True)` call is modelled from its
behaviour on markup-free text (the text itself, ends stripped); the function
then rejoins the whitespace-split words with single spaces, exactly as the
source's `" ".join(text.split())`. -/
def remove_html_markup (text : List Char) : List Char :=
  joinSp (splitWs text)

/-- The fixed literal substitution table of `preprocess_text`
(lines 204–210 of `src/preprocess_data.py`), applied in source order. -/
def applySubstitutions (t : List Char) : List Char :=
  let t := replaceSubstr "##at##-##at##".toList "-".toList t
  let t := replaceSubstr "&apos;".toList "'".toList t
  let t := replaceSubstr "&quot;".toList "\"".toList t
  let t := replaceSubstr "&#91;".toList "".toList t
  let t := replaceSubstr "&#93;".toList "".toList t
  let t := replaceSubstr "&#124;".toList "".toList t
  replaceSubstr "\"".toList " \" ".toList t

/-- The four sequential ordinal fixes of `preprocess_text`, in source order
(`th`, then `st`, then `rd`, then `nd`). -/
def ordinalFix (t : List Char) : List Char :=
  subOrd 'n' 'd' (subOrd 'r' 'd' (subOrd 's' 't' (subOrd 't' 'h' t)))

/-- Everything `preprocess_text` does to the text before splitting it into
words: markup removal, lowercasing and stripping, literal substitutions, the
language-specific character policy, period-run collapsing, ordinal fixes and
punctuation padding (lines 197–242 of `src/preprocess_data.py`). -/
def cleanse (text : List Char) (language : Lang) : List Char :=
  let t := remove_html_markup text
  let t := pyStrip (lowerStr t)
  let t := applySubstitutions t
  let t := charPolicy language t
  let t := collapseDots t
  let t := ordinalFix t
  padPunct t

/-- Embeds `preprocess_text` of `src/preprocess_data.py` with
`update_word_count=False`: cleanses the text, splits it on single spaces, and
rejects the whole text (returns the empty string) when the number of split
fields exceeds `n_max_words_per_text`; otherwise drops empty fields and
rejoins the words with single spaces.  The `language` argument ranges over
`Lang`, the exact set the source's assert admits; `n_max_words_per_text` is a
Python `int`, hence `Int`. -/
def preprocess_text (text : List Char) (language : Lang) (n_max_words_per_text : Int) :
    List Char :=
  let t := cleanse text language
  let text_words := splitSp t
  if (text_words.length : Int) > n_max_words_per_text then []
  else joinSp (text_words.filter (fun w => w ≠ []))

/-- A Python `dict` from word to count, modelled as an insertion-ordered
association list with unique keys. -/
abbrev WordTable := List (List Char × Nat)

/-- Embeds `d.get(word, 0)` on a word-count dict. -/
def dictGet (tbl : WordTable) (w : List Char) : Nat :=
  match tbl.find? (fun p => p.1 == w) with
  | some p => p.2
  | none => 0

/-- Embeds `d[word] = 1 + d.get(word, 0)`: an existing key is updated in
place, a new key is appended (Python dicts preserve insertion order). -/
def dictIncr (tbl : WordTable) (w : List Char) : WordTable :=
  if tbl.any (fun p => p.1 == w) then
    tbl.map (fun p => if p.1 == w then (p.1, p.2 + 1) else p)
  else tbl ++ [(w, 1)]

/-- The global `unique_words_count`: a dict from language string to word-count
dict, as initialised in `main` of `src/preprocess_data.py`. -/
abbrev UniqueWordsCount := List (List Char × WordTable)

/-- Embeds `unique_words_count[language][word] = 1 + ...get(word, 0)`.  The
source assumes the language key is present (it is initialised in `main`);
on a missing key, where Python would raise `KeyError`, the model leaves the
outer dict unchanged. -/
def uwcIncr (u : UniqueWordsCount) (lang w : List Char) : UniqueWordsCount :=
  u.map (fun p => if p.1 == lang then (p.1, dictIncr p.2 w) else p)

/-- The language-string key under which a `Lang` records its words. -/
def Lang.str : Lang → List Char
  | .en => "en".toList
  | .es => "es".toList
  | .fr => "fr".toList
  | .de => "de".toList

/-- Embeds `preprocess_text` of `src/preprocess_data.py` with its
`update_word_count` parameter and the `unique_words_count` global threaded as
state: returns the processed text together with the updated table.  Words are
counted in the filtering loop, i.e. only after the length check has passed
and only for non-empty words.  (The source's callers pass only three
arguments — a `TypeError` at run time; the embedding keeps the parameter as
`preprocess_text` itself declares it.) -/
def preprocess_text_full (text : List Char) (language : Lang)
    (n_max_words_per_text : Int) (update_word_count : Bool)
    (u : UniqueWordsCount) : List Char × UniqueWordsCount :=
  let t := cleanse text language
  let text_words := splitSp t
  if (text_words.length : Int) > n_max_words_per_text then ([], u)
  else
    let filtered_words := text_words.filter (fun w => w ≠ [])
    let u' := if update_word_count then
        filtered_words.foldl (fun acc w => uwcIncr acc language.str w) u
      else u
    (joinSp filtered_words, u')

/-- Embeds `check_language` of `src/download_data.py`: the asserts succeed
exactly when the language string is `es`, `fr` or `de` (`en` is rejected). -/
def check_language (language : List Char) : Bool :=
  language == "es".toList || language == "fr".toList || language == "de".toList

/-- One record of the global `processed_texts` list:
`{"en": ..., language: ..., "dataset": ...}`. -/
structure ProcessedPair where
  en : List Char
  eu : List Char
  dataset : List Char
deriving DecidableEq

/-- The per-record body shared by the dataset loops (`preprocess_tatoeba_dataset`
lines 309–320, `preprocess_europarl_dataset` lines 372–384 of
`src/preprocess_data.py`): both sides are normalized — with word counting
enabled, the evident intent of the `update_word_count` parameter, which the
source's calls omit — and the pair is appended to `processed_texts` only when
both processed sides are non-empty. -/
def process_pair (en_text eu_text : List Char) (language : Lang) (n : Int)
    (dataset : List Char) (st : UniqueWordsCount × List ProcessedPair) :
    UniqueWordsCount × List ProcessedPair :=
  let r1 := preprocess_text_full en_text .en n true st.1
  let r2 := preprocess_text_full eu_text language n true r1.2
  if r1.1 ≠ [] ∧ r2.1 ≠ [] then
    (r2.2, st.2 ++ [⟨r1.1, r2.1, dataset⟩])
  else (r2.2, st.2)

/-- Auxiliary for `splitNl`: accumulates the current (reversed) field. -/
def splitNlAux (cur : List Char) : List Char → List (List Char)
  | [] => [cur.reverse]
  | c :: cs => if c = '\n' then cur.reverse :: splitNlAux [] cs else splitNlAux (c :: cur) cs

/-- Embeds Python `text.split("\n")`, splitting file contents into lines. -/
def splitNl (l : List Char) : List (List Char) := splitNlAux [] l

/-- Embeds `preprocess_europarl_dataset` of `src/preprocess_data.py` on the
two loaded file contents: splits each side into lines, asserts that the line
counts match (`none` models the fatal `AssertionError`, raised before any
pair is processed), then iterates `for id_0 in range(len(original_en_texts))`
pairing the two sides by line index. -/
def preprocess_europarl_dataset (en_file eu_file : List Char) (language : Lang)
    (n : Int) (st : UniqueWordsCount × List ProcessedPair) :
    Option (UniqueWordsCount × List ProcessedPair) :=
  let original_en_texts := splitNl en_file
  let original_eu_texts := splitNl eu_file
  if original_en_texts.length = original_eu_texts.length then
    some ((List.range original_en_texts.length).foldl
      (fun acc id_0 =>
        process_pair (original_en_texts.getD id_0 []) (original_eu_texts.getD id_0 [])
          language n "europarl".toList acc)
      st)
  else none

/-- The accented Latin letters reachable through this pipeline's character
classes; used to model Unicode alphabeticity. -/
def accentedLetters : List Char :=
  ['á', 'à', 'â', 'ä', 'æ', 'ç', 'é', 'è', 'ê', 'ë', 'í', 'î', 'ï', 'ñ',
   'ó', 'ô', 'ö', 'œ', 'ú', 'û', 'ü', 'ù', 'ß',
   'Á', 'À', 'Â', 'Ä', 'Æ', 'Ç', 'É', 'È', 'Ê', 'Ë', 'Í', 'Î', 'Ï', 'Ñ',
   'Ó', 'Ô', 'Ö', 'Œ', 'Ú', 'Û', 'Ü', 'Ù']

/-- Modelled from the Python standard library: whether a character counts as
alphabetic for `str.isalpha()`, for ASCII letters and the accented Latin
letters occurring in this pipeline. -/
def pyAlphaChar (c : Char) : Bool :=
  ('A' ≤ c && c ≤ 'Z') || ('a' ≤ c && c ≤ 'z') || c ∈ accentedLetters

/-- Embeds Python `word.isalpha()`: non-empty and all characters alphabetic. -/
def pyIsalpha (w : List Char) : Bool :=
  !(w == []) && w.all pyAlphaChar

/-- Embeds Python `word.isdigit()` (modelled on ASCII decimal digits):
non-empty and all characters digits. -/
def pyIsdigit (w : List Char) : Bool :=
  !(w == []) && w.all (fun c => '0' ≤ c && c ≤ '9')

/-- The rarity test of `identify_language_rare_words` (lines 480–486 of
`src/preprocess_data.py`): count exactly one, `word.isalpha()`,
`not word.isdigit()`, and word length strictly between 7 and 11. -/
def rare_condition (count : Nat) (word : List Char) : Bool :=
  count == 1 && pyIsalpha word && !(pyIsdigit word) &&
    decide (7 < word.length) && decide (word.length < 11)

/-- Embeds Python `set.add` on a duplicate-free list model of a set. -/
def setAdd (s : List (List Char)) (w : List Char) : List (List Char) :=
  if w ∈ s then s else s ++ [w]

/-- Embeds `identify_language_rare_words` of `src/preprocess_data.py`: every
word of the language's word-count dict passing `rare_condition` is added to
the language's rare-word set (`rare` is the set's previous contents). -/
def identify_language_rare_words (wc : WordTable) (rare : List (List Char)) :
    List (List Char) :=
  wc.foldl (fun r p => if rare_condition p.2 p.1 then setAdd r p.1 else r) rare

/-- Embeds `identify_common_rare_words` of `src/preprocess_data.py` (lines
494–517): recomputes both languages' rare-word sets, computes their
intersection `rare_words[language] & rare_words["en"]` into a local variable
and prints its size — and, lacking a `return` statement, returns `None`
(the first component) despite the `List[str]` annotation and the docstring.
The second component is the discarded local `common_rare_words`. -/
def identify_common_rare_words (wc_en wc_eu : WordTable)
    (rare_en rare_eu : List (List Char)) :
    Option (List (List Char)) × List (List Char) :=
  let r_en := identify_language_rare_words wc_en rare_en
  let r_eu := identify_language_rare_words wc_eu rare_eu
  let common_rare_words := r_eu.filter (fun w => w ∈ r_en)
  (none, common_rare_words)

/-- The object state created by `PreprocessText.__init__`
(lines 32–54 of `src/preprocess_data.py`). -/
structure PreprocessText where
  language : List Char
  n_max_words_per_text : Int
  unique_word_count : List (List Char × WordTable)
  rare_words : List (List Char × List (List Char))

set_option linter.unusedVariables false in
/-- Embeds `PreprocessText.__init__`: validates the language with
`check_language` and the word limit with `isinstance(·, int)` (true of any
integer), then stores the literal constant `50` — not the argument — as
`n_max_words_per_text`, and empty per-language dictionaries. -/
def PreprocessText.init (language : List Char) (n_max_words_per_text : Int) :
    Option PreprocessText :=
  if check_language language then
    some { language := language
           n_max_words_per_text := 50
           unique_word_count := [("en".toList, []), (language, [])]
           rare_words := [("en".toList, []), (language, [])] }
  else none

/-- Embeds `isinstance(n_max_words_per_text, int)`, the only validation the
dataset functions apply to the word limit: always true of an integer — no
positivity test exists in the source. -/
def isinstance_int (_n : Int) : Bool := true

/-- The configuration validation at the top of `preprocess_tatoeba_dataset`
(lines 284–288 of `src/preprocess_data.py`, identical in the Europarl and
Paracrawl functions): `check_language(language)` and the `isinstance` check
on the word limit. -/
def preprocess_dataset_config_ok (language : List Char)
    (n_max_words_per_text : Int) : Bool :=
  check_language language && isinstance_int n_max_words_per_text

/-- Modelled from the spec (§4.4): no shard-writing code exists under `src/`.
The ShardWriter buffers accepted pairs per language side in parallel ordered
sequences; a flush writes both buffers as the two companion files of the
current shard index and clears them. -/
structure ShardWriter where
  buf_en : List (List Char)
  buf_eu : List (List Char)
  shard_index : Nat
  flushed : List (List (List Char) × List (List Char))

/-- Modelled from the spec: the shard capacity of 1,000,000 pairs. -/
def shardCapacity : Nat := 1000000

/-- A fresh ShardWriter for one output stream, with shard index 0. -/
def ShardWriter.empty : ShardWriter := ⟨[], [], 0, []⟩

/-- Modelled from the spec: writes both language buffers as the files of the
current shard index, increments the index, and clears the buffers. -/
def ShardWriter.flush (w : ShardWriter) : ShardWriter :=
  { buf_en := [], buf_eu := [], shard_index := w.shard_index + 1,
    flushed := w.flushed ++ [(w.buf_en, w.buf_eu)] }

/-- Modelled from the spec: buffers one accepted pair on both sides and
flushes when the buffered count reaches capacity. -/
def ShardWriter.append (w : ShardWriter) (p : List Char × List Char) : ShardWriter :=
  let w' := { w with buf_en := w.buf_en ++ [p.1], buf_eu := w.buf_eu ++ [p.2] }
  if w'.buf_en.length = shardCapacity then w'.flush else w'

/-- Modelled from the spec: flushes any remaining buffered pairs (even below
capacity) as the final shard. -/
def ShardWriter.finalize (w : ShardWriter) : ShardWriter :=
  if w.buf_en = [] then w else w.flush

/-- Feeding one source's accepted pairs through a fresh ShardWriter and
finalizing at the end of the source. -/
def runShardWriter (pairs : List (List Char × List Char)) : ShardWriter :=
  (pairs.foldl ShardWriter.append ShardWriter.empty).finalize

/-- The division of a list into consecutive chunks of `shardCapacity`
elements, the last chunk possibly shorter; the reference shape for the
ShardWriter's flushed output. -/
def chunksOf {α : Type} : List α → List (List α)
  | [] => []
  | x :: xs => ((x :: xs).take shardCapacity) :: chunksOf ((x :: xs).drop shardCapacity)
  termination_by l => l.length
  decreasing_by
    simp only [List.length_drop, List.length_cons, shardCapacity]
    omega

/-! ## Supporting lemmas -/

/-- `splitSpAux` always produces at least one field. -/
theorem splitSpAux_length_pos (l : List Char) :
    ∀ cur, 0 < (splitSpAux cur l).length := by
  induction l with
  | nil => intro cur; simp [splitSpAux]
  | cons c cs ih =>
      intro cur
      by_cases h : c = ' ' <;> simp [splitSpAux, h, ih]

/-- Python `text.split(" ")` never returns an empty list. -/
theorem splitSp_length_pos (l : List Char) : 0 < (splitSp l).length :=
  splitSpAux_length_pos l []

/-- With a non-positive word limit, `preprocess_text` rejects every text:
even the empty text splits into one (empty) field. -/
theorem preprocess_text_nonpos_limit (text : List Char) (L : Lang) (n : Int)
    (h : n ≤ 0) : preprocess_text text L n = [] := by
  have h1 := splitSp_length_pos (cleanse text L)
  have h2 : ((splitSp (cleanse text L)).length : Int) > n := by
    omega
  simp only [preprocess_text]
  rw [if_pos h2]

/-- The processed text returned by `preprocess_text_full` coincides with the
`update_word_count=False` function `preprocess_text`, whatever the flag and
table: word counting does not change the returned string. -/
theorem preprocess_text_full_fst (text : List Char) (L : Lang) (n : Int)
    (b : Bool) (u : UniqueWordsCount) :
    (preprocess_text_full text L n b u).1 = preprocess_text text L n := by
  simp only [preprocess_text_full, preprocess_text]
  by_cases h : ((splitSp (cleanse text L)).length : Int) > n <;> simp [h]

/-- Membership after `setAdd`. -/
theorem mem_setAdd (s : List (List Char)) (v w : List Char) :
    w ∈ setAdd s v ↔ w ∈ s ∨ w = v := by
  simp only [setAdd]
  by_cases h : v ∈ s
  · rw [if_pos h]
    constructor
    · exact Or.inl
    · rintro (hw | rfl)
      · exact hw
      · exact h
  · rw [if_neg h]
    simp [List.mem_append]

/-- Membership in the rare-word fold: a word is collected iff it was already
in the incoming set or some table entry for it passes `rare_condition`. -/
theorem mem_identify_language_rare_words (wc : WordTable) :
    ∀ (r : List (List Char)) (w : List Char),
      w ∈ identify_language_rare_words wc r ↔
        w ∈ r ∨ ∃ n, (w, n) ∈ wc ∧ rare_condition n w = true := by
  induction wc with
  | nil =>
      intro r w
      simp [identify_language_rare_words]
  | cons p rest ih =>
      intro r w
      obtain ⟨pw, pn⟩ := p
      simp only [identify_language_rare_words, List.foldl_cons] at ih ⊢
      rw [ih]
      by_cases hc : rare_condition pn pw = true
      · rw [if_pos hc, mem_setAdd]
        constructor
        · rintro ((hw | rfl) | ⟨n, hn, hcn⟩)
          · exact Or.inl hw
          · exact Or.inr ⟨pn, List.mem_cons_self _ _, hc⟩
          · exact Or.inr ⟨n, List.mem_cons_of_mem _ hn, hcn⟩
        · rintro (hw | ⟨n, hn, hcn⟩)
          · exact Or.inl (Or.inl hw)
          · rcases List.mem_cons.mp hn with heq | hm
            · simp only [Prod.mk.injEq] at heq
              exact Or.inl (Or.inr heq.1)
            · exact Or.inr ⟨n, hm, hcn⟩
      · rw [if_neg hc]
        constructor
        · rintro (hw | ⟨n, hn, hcn⟩)
          · exact Or.inl hw
          · exact Or.inr ⟨n, List.mem_cons_of_mem _ hn, hcn⟩
        · rintro (hw | ⟨n, hn, hcn⟩)
          · exact Or.inl hw
          · rcases List.mem_cons.mp hn with heq | hm
            · simp only [Prod.mk.injEq] at heq
              obtain ⟨rfl, rfl⟩ := heq
              exact absurd hcn hc
            · exact Or.inr ⟨n, hm, hcn⟩

/-- Looking up a key present in a table with duplicate-free keys. -/
theorem dictGet_of_mem :
    ∀ (wc : WordTable) (w : List Char) (n : Nat),
      (wc.map Prod.fst).Nodup → (w, n) ∈ wc → dictGet wc w = n := by
  intro wc
  induction wc with
  | nil =>
      intro w n _ h
      cases h
  | cons p rest ih =>
      intro w n hnd hmem
      obtain ⟨pw, pn⟩ := p
      simp only [List.map_cons, List.nodup_cons] at hnd
      rcases List.mem_cons.mp hmem with heq | hmem'
      · simp only [Prod.mk.injEq] at heq
        obtain ⟨rfl, rfl⟩ := heq
        have hstep : List.find? (fun p : List Char × Nat => p.1 == w) ((w, n) :: rest) =
            some (w, n) := by
          rw [List.find?_cons_of_pos]
          simp
        simp only [dictGet, hstep]
      · have hne : ¬ ((fun p : List Char × Nat => p.1 == w) (pw, pn) = true) := by
          simp only [beq_iff_eq]
          intro h
          subst h
          exact hnd.1 (List.mem_map.mpr ⟨(pw, n), hmem', rfl⟩)
        have hstep : List.find? (fun p : List Char × Nat => p.1 == w) ((pw, pn) :: rest) =
            List.find? (fun p : List Char × Nat => p.1 == w) rest := by
          rw [List.find?_cons_of_neg]
          exact hne
        simp only [dictGet, hstep]
        exact ih w n hnd.2 hmem'

/-- A non-zero recorded count comes from an actual table entry. -/
theorem dictGet_mem_of_ne_zero (wc : WordTable) (w : List Char)
    (h : dictGet wc w ≠ 0) : (w, dictGet wc w) ∈ wc := by
  simp only [dictGet] at h ⊢
  cases hf : List.find? (fun p => p.1 == w) wc with
  | none =>
      rw [hf] at h
      simp at h
  | some q =>
      have hm := List.mem_of_find?_eq_some hf
      have hp : q.1 = w := by simpa using List.find?_some hf
      obtain ⟨q1, q2⟩ := q
      subst hp
      simpa using hm

/-- An alphabetic character is not an ASCII digit. -/
theorem pyAlphaChar_not_digit (c : Char) (h : pyAlphaChar c = true) :
    ('0' ≤ c && c ≤ '9') = false := by
  by_cases hd : '0' ≤ c ∧ c ≤ '9'
  · exfalso
    simp only [pyAlphaChar, Bool.or_eq_true, Bool.and_eq_true,
      decide_eq_true_eq] at h
    rcases h with (⟨h1, _⟩ | ⟨h1, _⟩) | h
    · exact absurd (le_trans h1 hd.2) (by decide)
    · exact absurd (le_trans h1 hd.2) (by decide)
    · have hgt : '9' < c :=
        (by decide : ∀ d ∈ accentedLetters, '9' < d) c h
      exact absurd hd.2 (not_le.mpr hgt)
  · by_cases h0 : '0' ≤ c
    · have h9 : ¬ (c ≤ '9') := fun h9 => hd ⟨h0, h9⟩
      simp [h9]
    · simp [h0]

/-- Python `isalpha` excludes `isdigit`. -/
theorem pyIsalpha_not_pyIsdigit (w : List Char) (h : pyIsalpha w = true) :
    pyIsdigit w = false := by
  simp only [pyIsalpha, Bool.and_eq_true, List.all_eq_true] at h
  rcases w with _ | ⟨c, cs⟩
  · simp at h
  · simp only [pyIsdigit, List.all_cons]
    have := pyAlphaChar_not_digit c (h.2 c (by simp))
    simp [this]

/-- Folding over the index range with default-valued indexing equals folding
over the zip, when the two lists have equal lengths. -/
theorem range_foldl_zip {α : Type} :
    ∀ (xs ys : List (List Char)) (st : α) (f : List Char → List Char → α → α),
      xs.length = ys.length →
      (List.range xs.length).foldl
          (fun acc i => f (xs.getD i []) (ys.getD i []) acc) st
        = (xs.zip ys).foldl (fun acc p => f p.1 p.2 acc) st := by
  intro xs
  induction xs with
  | nil =>
      intro ys st f h
      simp
  | cons x xs ih =>
      intro ys st f h
      rcases ys with _ | ⟨y, ys⟩
      · simp at h
      · simp only [List.length_cons, Nat.succ.injEq] at h
        simp only [List.length_cons, List.range_succ_eq_map, List.foldl_cons,
          List.foldl_map, List.getD_cons_zero, List.getD_cons_succ,
          List.zip_cons_cons]
        exact ih ys _ f h

/-- Unfolding `chunksOf` on a non-empty list. -/
theorem chunksOf_cons_eq {α : Type} (l : List α) (h : l ≠ []) :
    chunksOf l = l.take shardCapacity :: chunksOf (l.drop shardCapacity) := by
  rcases l with _ | ⟨x, xs⟩
  · exact absurd rfl h
  · simp only [chunksOf]

/-- `chunksOf` of the empty list. -/
theorem chunksOf_nil {α : Type} : chunksOf ([] : List α) = [] := by
  simp only [chunksOf]

/-- `chunksOf` yields no chunks only on the empty list. -/
theorem chunksOf_eq_nil_iff {α : Type} (l : List α) : chunksOf l = [] ↔ l = [] := by
  constructor
  · intro h
    by_contra hne
    rw [chunksOf_cons_eq l hne] at h
    cases h
  · intro h
    subst h
    exact chunksOf_nil

/-- Flattening the chunks recovers the list (bounded form for induction). -/
theorem chunksOf_flatten_bounded {α : Type} :
    ∀ (n : Nat) (l : List α), l.length ≤ n → (chunksOf l).flatten = l := by
  intro n
  induction n with
  | zero =>
      intro l h
      have : l = [] := List.eq_nil_of_length_eq_zero (Nat.le_zero.mp h)
      subst this
      simp [chunksOf_nil]
  | succ n ih =>
      intro l h
      by_cases hl : l = []
      · subst hl
        simp [chunksOf_nil]
      · rw [chunksOf_cons_eq l hl, List.flatten_cons,
          ih (l.drop shardCapacity) ?_, List.take_append_drop]
        have hpos : 0 < l.length := List.length_pos.mpr hl
        simp only [List.length_drop, shardCapacity]
        omega

/-- Flattening the chunks recovers the list. -/
theorem chunksOf_flatten {α : Type} (l : List α) : (chunksOf l).flatten = l :=
  chunksOf_flatten_bounded l.length l le_rfl

/-- Every chunk except possibly the last holds exactly `shardCapacity`
elements (bounded form for induction). -/
theorem chunksOf_dropLast_bounded {α : Type} :
    ∀ (n : Nat) (l : List α), l.length ≤ n →
      ∀ c ∈ (chunksOf l).dropLast, c.length = shardCapacity := by
  intro n
  induction n with
  | zero =>
      intro l h c hc
      have : l = [] := List.eq_nil_of_length_eq_zero (Nat.le_zero.mp h)
      subst this
      simp [chunksOf_nil] at hc
  | succ n ih =>
      intro l h c hc
      by_cases hl : l = []
      · subst hl
        simp [chunksOf_nil] at hc
      · rw [chunksOf_cons_eq l hl] at hc
        by_cases hr : chunksOf (l.drop shardCapacity) = []
        · rw [hr] at hc
          simp at hc
        · rw [List.dropLast_cons_of_ne_nil hr] at hc
          rcases List.mem_cons.mp hc with rfl | hc'
          · have hd : l.drop shardCapacity ≠ [] := by
              intro h0
              exact hr (h0 ▸ chunksOf_nil)
            have hlen : shardCapacity < l.length := by
              have := List.length_pos.mpr hd
              simp only [List.length_drop] at this
              omega
            simp [List.length_take]
            omega
          · refine ih (l.drop shardCapacity) ?_ c hc'
            have hpos : 0 < l.length := List.length_pos.mpr hl
            simp only [List.length_drop, shardCapacity]
            omega

/-- The chunk sizes of a list of 1,000,001 elements are exactly
`[1000000, 1]`. -/
theorem chunksOf_map_length_1000001 {α : Type} (l : List α)
    (h : l.length = 1000001) :
    (chunksOf l).map List.length = [1000000, 1] := by
  have hl : l ≠ [] := by
    intro h0
    subst h0
    simp at h
  have h2 : l.drop shardCapacity ≠ [] := by
    intro h0
    have := congrArg List.length h0
    simp [List.length_drop, h, shardCapacity] at this
  have h3 : (l.drop shardCapacity).drop shardCapacity = [] := by
    apply List.drop_eq_nil_of_le
    simp only [List.length_drop, h, shardCapacity]
    omega
  rw [chunksOf_cons_eq l hl, chunksOf_cons_eq _ h2, h3, chunksOf_nil]
  simp [List.length_take, List.length_drop, h, shardCapacity]

/-- `dropLast` commutes with `map`. -/
theorem map_dropLast {α β : Type} (f : α → β) :
    ∀ (l : List α), (l.map f).dropLast = l.dropLast.map f := by
  intro l
  induction l with
  | nil => simp
  | cons x xs ih =>
      rcases xs with _ | ⟨y, ys⟩
      · simp
      · simp only [List.map_cons] at ih ⊢
        rw [List.dropLast_cons_of_ne_nil
            (by simp : (f y :: List.map f ys) ≠ []),
          List.dropLast_cons_of_ne_nil (by simp : (y :: ys) ≠ []), ih]
        simp

/-- The ShardWriter fold, started on a below-capacity buffer holding the
pairs `b`, flushes exactly the capacity-sized chunks of `b ++ pairs`. -/
theorem shardWriter_fold :
    ∀ (pairs b : List (List Char × List Char)) (idx : Nat)
      (fl : List (List (List Char) × List (List Char))),
      b.length < shardCapacity →
      ((pairs.foldl ShardWriter.append
          ⟨b.map Prod.fst, b.map Prod.snd, idx, fl⟩).finalize).flushed
        = fl ++ (chunksOf (b ++ pairs)).map
            (fun c => (c.map Prod.fst, c.map Prod.snd)) := by
  intro pairs
  induction pairs with
  | nil =>
      intro b idx fl hb
      simp only [List.foldl_nil, ShardWriter.finalize]
      by_cases h : b = []
      · subst h
        simp [chunksOf_nil]
      · rw [if_neg (by simpa using h)]
        rw [chunksOf_cons_eq _ (by simpa using h),
          List.take_of_length_le (by simpa using le_of_lt hb),
          List.drop_eq_nil_of_le (by simpa using le_of_lt hb), chunksOf_nil]
        simp [ShardWriter.flush]
  | cons p ps ih =>
      intro b idx fl hb
      have hmap1 : b.map Prod.fst ++ [p.1] = (b ++ [p]).map Prod.fst := by simp
      have hmap2 : b.map Prod.snd ++ [p.2] = (b ++ [p]).map Prod.snd := by simp
      simp only [List.foldl_cons, ShardWriter.append, hmap1, hmap2]
      by_cases hc : (b ++ [p]).length = shardCapacity
      · rw [if_pos (by simpa using hc)]
        have hstate : (ShardWriter.flush
            ⟨(b ++ [p]).map Prod.fst, (b ++ [p]).map Prod.snd, idx, fl⟩)
            = ⟨(([] : List (List Char × List Char)).map Prod.fst),
               (([] : List (List Char × List Char)).map Prod.snd), idx + 1,
               fl ++ [((b ++ [p]).map Prod.fst, (b ++ [p]).map Prod.snd)]⟩ := by
          simp [ShardWriter.flush]
        rw [hstate, ih [] (idx + 1) _ (by simp [shardCapacity]),
          List.nil_append, List.append_cons b p ps,
          chunksOf_cons_eq (b ++ [p] ++ ps) (by simp),
          List.take_left' hc, List.drop_left' hc]
        simp
      · rw [if_neg (by simpa using hc)]
        have hlt : (b ++ [p]).length < shardCapacity := by
          simp only [List.length_append, List.length_singleton] at hc ⊢
          omega
        rw [ih (b ++ [p]) idx fl hlt, List.append_cons b p ps]

/-! ### Structure of normalized output (towards C3) -/

/-- Fields produced by `splitSpAux` contain no spaces. -/
theorem splitSpAux_no_space :
    ∀ (l cur : List Char), (∀ c ∈ cur, c ≠ ' ') →
      ∀ w ∈ splitSpAux cur l, ∀ c ∈ w, c ≠ ' ' := by
  intro l
  induction l with
  | nil =>
      intro cur hcur w hw c hc
      simp only [splitSpAux, List.mem_singleton] at hw
      subst hw
      exact hcur c (List.mem_reverse.mp hc)
  | cons d ds ih =>
      intro cur hcur w hw c hc
      by_cases hd : d = ' '
      · rw [splitSpAux, if_pos hd] at hw
        rcases List.mem_cons.mp hw with rfl | hw'
        · exact hcur c (List.mem_reverse.mp hc)
        · exact ih [] (by simp) w hw' c hc
      · rw [splitSpAux, if_neg hd] at hw
        refine ih (d :: cur) ?_ w hw c hc
        intro e he
        rcases List.mem_cons.mp he with rfl | he'
        · exact hd
        · exact hcur e he'

/-- Fields of Python `split(" ")` contain no spaces. -/
theorem splitSp_no_space (l : List Char) :
    ∀ w ∈ splitSp l, ∀ c ∈ w, c ≠ ' ' :=
  splitSpAux_no_space l [] (by simp)

/-- `splitSpAux` walks through a space-free word by accumulating it. -/
theorem splitSpAux_word :
    ∀ (w : List Char), (∀ c ∈ w, c ≠ ' ') →
      ∀ (cur l : List Char),
        splitSpAux cur (w ++ l) = splitSpAux (w.reverse ++ cur) l := by
  intro w
  induction w with
  | nil =>
      intro _ cur l
      simp
  | cons c w' ih =>
      intro hw cur l
      have hc : c ≠ ' ' := hw c (by simp)
      rw [List.cons_append, splitSpAux, if_neg hc,
        ih (fun e he => hw e (List.mem_cons_of_mem _ he)) (c :: cur) l]
      simp

/-- Splitting the space-joined words recovers them, for non-empty space-free
words. -/
theorem splitSp_joinSp :
    ∀ (ws : List (List Char)), ws ≠ [] →
      (∀ w ∈ ws, w ≠ [] ∧ ∀ c ∈ w, c ≠ ' ') →
      splitSp (joinSp ws) = ws := by
  intro ws
  induction ws with
  | nil =>
      intro h
      exact absurd rfl h
  | cons w rest ih =>
      intro _ hws
      rcases rest with _ | ⟨w', rest'⟩
      · show splitSpAux [] (joinSp [w]) = [w]
        have := (hws w (by simp)).2
        rw [show joinSp [w] = w ++ [] from by simp [joinSp],
          splitSpAux_word w this [] []]
        simp [splitSpAux]
      · show splitSpAux [] (joinSp (w :: w' :: rest')) = w :: w' :: rest'
        rw [joinSp, splitSpAux_word w (hws w (by simp)).2 [] _]
        rw [List.append_nil, splitSpAux, if_pos rfl, List.reverse_reverse]
        exact congrArg _ (ih (by simp) (fun v hv => hws v (List.mem_cons_of_mem _ hv)))

/-- A character of a joined word is a character of the join. -/
theorem mem_joinSp :
    ∀ (ws : List (List Char)) (w : List Char), w ∈ ws →
      ∀ c ∈ w, c ∈ joinSp ws := by
  intro ws
  induction ws with
  | nil =>
      intro w hw
      cases hw
  | cons v rest ih =>
      intro w hw c hc
      rcases rest with _ | ⟨v', rest'⟩
      · rcases List.mem_cons.mp hw with rfl | h
        · exact hc
        · cases h
      · rw [joinSp]
        rcases List.mem_cons.mp hw with rfl | h
        · exact List.mem_append.mpr (Or.inl hc)
        · exact List.mem_append.mpr (Or.inr (List.mem_cons_of_mem _ (ih w h c hc)))

/-- The join of a list headed by a non-empty word starts with that word's
head character. -/
theorem joinSp_cons_exists (c : Char) (w : List Char) (ws : List (List Char)) :
    ∃ tl, joinSp ((c :: w) :: ws) = c :: tl := by
  rcases ws with _ | ⟨w', ws'⟩
  · exact ⟨w, rfl⟩
  · exact ⟨w ++ ' ' :: joinSp (w' :: ws'), rfl⟩

/-- `splitWsAux` walks through a whitespace-free word by accumulating it. -/
theorem splitWsAux_word :
    ∀ (w : List Char), (∀ c ∈ w, isWs c = false) →
      ∀ (cur l : List Char),
        splitWsAux cur (w ++ l) = splitWsAux (w.reverse ++ cur) l := by
  intro w
  induction w with
  | nil =>
      intro _ cur l
      simp
  | cons c w' ih =>
      intro hw cur l
      have hc : isWs c = false := hw c (by simp)
      rw [List.cons_append, splitWsAux, if_neg (by simp [hc]),
        ih (fun e he => hw e (List.mem_cons_of_mem _ he)) (c :: cur) l]
      simp

/-- Whitespace-splitting the space-joined words recovers them, for non-empty
whitespace-free words. -/
theorem splitWs_joinSp :
    ∀ (ws : List (List Char)),
      (∀ w ∈ ws, w ≠ [] ∧ ∀ c ∈ w, isWs c = false) →
      splitWs (joinSp ws) = ws := by
  intro ws
  induction ws with
  | nil =>
      intro _
      rfl
  | cons w rest ih =>
      intro hws
      rcases rest with _ | ⟨w', rest'⟩
      · show splitWsAux [] (joinSp [w]) = [w]
        rw [show joinSp [w] = w ++ [] from by simp [joinSp],
          splitWsAux_word w (hws w (by simp)).2 [] []]
        rw [List.append_nil, splitWsAux,
          if_neg (by simp [(hws w (by simp)).1]), List.reverse_reverse]
      · show splitWsAux [] (joinSp (w :: w' :: rest')) = w :: w' :: rest'
        rw [joinSp, splitWsAux_word w (hws w (by simp)).2 [] _]
        rw [List.append_nil, splitWsAux, if_pos (by simp [isWs]),
          if_neg (by simp [(hws w (by simp)).1]), List.reverse_reverse]
        exact congrArg _ (ih (fun v hv => hws v (List.mem_cons_of_mem _ hv)))

/-- Appending one more word to a non-empty join. -/
theorem joinSp_append_singleton :
    ∀ (ws : List (List Char)) (v : List Char), ws ≠ [] →
      joinSp (ws ++ [v]) = joinSp ws ++ ' ' :: v := by
  intro ws
  induction ws with
  | nil =>
      intro v h
      exact absurd rfl h
  | cons w rest ih =>
      intro v _
      rcases rest with _ | ⟨w', rest'⟩
      · rfl
      · calc joinSp ((w :: w' :: rest') ++ [v])
            = w ++ ' ' :: joinSp ((w' :: rest') ++ [v]) := rfl
          _ = w ++ ' ' :: (joinSp (w' :: rest') ++ ' ' :: v) := by
                rw [ih v (by simp)]
          _ = joinSp (w :: w' :: rest') ++ ' ' :: v := by
                rw [show joinSp (w :: w' :: rest')
                    = w ++ ' ' :: joinSp (w' :: rest') from rfl]
                simp [List.append_assoc]

/-- The reverse of a join is the join of the reversed words in reverse
order. -/
theorem reverse_joinSp :
    ∀ (ws : List (List Char)),
      (joinSp ws).reverse = joinSp ((ws.map List.reverse).reverse) := by
  intro ws
  induction ws with
  | nil => rfl
  | cons w rest ih =>
      rcases rest with _ | ⟨w', rest'⟩
      · simp [joinSp]
      · calc (joinSp (w :: w' :: rest')).reverse
            = (w ++ ' ' :: joinSp (w' :: rest')).reverse := rfl
          _ = (joinSp (w' :: rest')).reverse ++ [' '] ++ w.reverse := by
                rw [List.reverse_append, List.reverse_cons]
          _ = joinSp ((List.map List.reverse (w' :: rest')).reverse) ++ [' ']
                ++ w.reverse := by rw [ih]
          _ = joinSp ((List.map List.reverse (w' :: rest')).reverse
                ++ [w.reverse]) := by
                rw [joinSp_append_singleton _ _ (by simp)]
                simp [List.append_assoc]
          _ = joinSp ((List.map List.reverse (w :: w' :: rest')).reverse) := by
                simp [List.append_assoc]

/-! ### Per-stage fixpoint lemmas (towards C3) -/

/-- An ASCII lowercase letter is not Python whitespace. -/
theorem letter_not_ws (c : Char) (h1 : 'a' ≤ c) (_h2 : c ≤ 'z') :
    isWs c = false := by
  have hne : ∀ d : Char, d < 'a' → c ≠ d :=
    fun d hd he => absurd (he ▸ h1) (not_le.mpr hd)
  simp [isWs, hne ' ' (by decide), hne '\t' (by decide), hne '\n' (by decide),
    hne '\x0d' (by decide), hne '\x0b' (by decide), hne '\x0c' (by decide)]

/-- `lowerChar` fixes ASCII lowercase letters. -/
theorem lowerChar_fix_letter (c : Char) (h1 : 'a' ≤ c) (h2 : c ≤ 'z') :
    lowerChar c = c := by
  have hz : ¬ (c ≤ 'Z') := fun h => absurd (le_trans h1 h) (by decide)
  have hne : ∀ d : Char, 'z' < d → c ≠ d :=
    fun d hd he => absurd (he ▸ h2) (not_le.mpr hd)
  simp [lowerChar, hz, hne 'Á' (by decide), hne 'À' (by decide),
    hne 'Â' (by decide), hne 'Ä' (by decide), hne 'Æ' (by decide),
    hne 'Ç' (by decide), hne 'É' (by decide), hne 'È' (by decide),
    hne 'Ê' (by decide), hne 'Ë' (by decide), hne 'Í' (by decide),
    hne 'Î' (by decide), hne 'Ï' (by decide), hne 'Ñ' (by decide),
    hne 'Ó' (by decide), hne 'Ô' (by decide), hne 'Ö' (by decide),
    hne 'Œ' (by decide), hne 'Ú' (by decide), hne 'Û' (by decide),
    hne 'Ü' (by decide), hne 'Ù' (by decide)]

/-- `lowerStr` fixes strings of ASCII lowercase letters and spaces. -/
theorem lowerStr_fix (t : List Char)
    (h : ∀ c ∈ t, ('a' ≤ c ∧ c ≤ 'z') ∨ c = ' ') : lowerStr t = t := by
  induction t with
  | nil => rfl
  | cons c cs ih =>
      have hc : lowerChar c = c := by
        rcases h c (by simp) with ⟨h1, h2⟩ | rfl
        · exact lowerChar_fix_letter c h1 h2
        · decide
      simp only [lowerStr, List.map_cons] at ih ⊢
      rw [hc, ih (fun e he => h e (List.mem_cons_of_mem _ he))]

/-- Strings of letters and spaces that start with a non-space are unchanged
by a leading whitespace `dropWhile`. -/
theorem dropWhile_isWs_fix (t : List Char)
    (h : ∀ c, t.head? = some c → isWs c = false) : t.dropWhile isWs = t := by
  cases t with
  | nil => rfl
  | cons c cs =>
      rw [List.dropWhile_cons, if_neg (by simp [h c rfl])]

/-- `pyStrip` fixes a join of non-empty letter words. -/
theorem pyStrip_joinSp (ws : List (List Char))
    (h : ∀ w ∈ ws, w ≠ [] ∧ ∀ c ∈ w, 'a' ≤ c ∧ c ≤ 'z') :
    pyStrip (joinSp ws) = joinSp ws := by
  have hhead : ∀ (vs : List (List Char)),
      (∀ w ∈ vs, w ≠ [] ∧ ∀ c ∈ w, 'a' ≤ c ∧ c ≤ 'z') →
      ∀ c, (joinSp vs).head? = some c → isWs c = false := by
    intro vs hvs c hc
    cases vs with
    | nil => cases hc
    | cons w rest =>
        rcases w with _ | ⟨d, w'⟩
        · exact absurd rfl (hvs [] (by simp)).1
        · obtain ⟨tl, htl⟩ := joinSp_cons_exists d w' rest
          rw [htl] at hc
          simp only [List.head?_cons, Option.some.injEq] at hc
          have hd := (hvs (d :: w') (by simp)).2 d (by simp)
          rw [← hc]
          exact letter_not_ws d hd.1 hd.2
  have h1 : (joinSp ws).dropWhile isWs = joinSp ws :=
    dropWhile_isWs_fix _ (hhead ws h)
  have hrev : ∀ w ∈ (ws.map List.reverse).reverse,
      w ≠ [] ∧ ∀ c ∈ w, 'a' ≤ c ∧ c ≤ 'z' := by
    intro w hw
    rw [List.mem_reverse, List.mem_map] at hw
    obtain ⟨v, hv, rfl⟩ := hw
    refine ⟨by simpa using (h v hv).1, ?_⟩
    intro c hc
    exact (h v hv).2 c (List.mem_reverse.mp hc)
  have h2 : (joinSp ws).reverse.dropWhile isWs = (joinSp ws).reverse := by
    rw [reverse_joinSp]
    exact dropWhile_isWs_fix _ (hhead _ hrev)
  rw [pyStrip, h1, h2, List.reverse_reverse]

/-- A prefix match means every pattern character occurs in the text. -/
theorem prefOf_mem :
    ∀ (pat l : List Char), prefOf pat l = true → ∀ a ∈ pat, a ∈ l := by
  intro pat
  induction pat with
  | nil =>
      intro l _ a ha
      cases ha
  | cons p ps ih =>
      intro l hp a ha
      cases l with
      | nil => cases hp
      | cons c cs =>
          simp only [prefOf, Bool.and_eq_true, decide_eq_true_eq] at hp
          rcases List.mem_cons.mp ha with rfl | ha'
          · exact hp.1 ▸ List.mem_cons_self _ _
          · exact List.mem_cons_of_mem _ (ih cs hp.2 a ha')

/-- `replaceSubstrGo` is the identity when some pattern character never
occurs in the text. -/
theorem replaceSubstrGo_no_occur (pat rep : List Char) (a : Char) (ha : a ∈ pat) :
    ∀ (fuel : Nat) (l : List Char), a ∉ l → replaceSubstrGo pat rep fuel l = l := by
  intro fuel
  induction fuel with
  | zero =>
      intro l _
      cases l <;> rfl
  | succ fuel ih =>
      intro l hl
      cases l with
      | nil => rfl
      | cons c cs =>
          have hcond : (pat ≠ [] && prefOf pat (c :: cs)) = false := by
            by_cases hp : prefOf pat (c :: cs) = true
            · exact absurd (prefOf_mem pat (c :: cs) hp a ha) hl
            · simp [hp]
          rw [replaceSubstrGo, hcond]
          simp only [Bool.false_eq_true, if_false]
          rw [ih cs (fun hc => hl (List.mem_cons_of_mem _ hc))]

/-- `replaceSubstr` is the identity when some pattern character never occurs
in the text. -/
theorem replaceSubstr_no_occur (pat rep l : List Char) (a : Char)
    (ha : a ∈ pat) (hl : a ∉ l) : replaceSubstr pat rep l = l :=
  replaceSubstrGo_no_occur pat rep a ha l.length l hl

/-- The literal substitution table fixes strings of letters and spaces:
every pattern contains `#`, `&` or `"`. -/
theorem applySubstitutions_fix (t : List Char)
    (h : ∀ c ∈ t, ('a' ≤ c ∧ c ≤ 'z') ∨ c = ' ') :
    applySubstitutions t = t := by
  have hno : ∀ d : Char, ¬ ('a' ≤ d ∧ d ≤ 'z') → d ≠ ' ' → d ∉ t := by
    intro d hd1 hd2 hc
    exact (h d hc).elim hd1 hd2
  have hhash : '#' ∉ t := hno '#' (by decide) (by decide)
  have hamp : '&' ∉ t := hno '&' (by decide) (by decide)
  have hq : '"' ∉ t := hno '"' (by decide) (by decide)
  simp only [applySubstitutions]
  rw [replaceSubstr_no_occur _ _ t '#' (by decide) hhash,
    replaceSubstr_no_occur _ _ t '&' (by decide) hamp,
    replaceSubstr_no_occur _ _ t '&' (by decide) hamp,
    replaceSubstr_no_occur _ _ t '#' (by decide) hhash,
    replaceSubstr_no_occur _ _ t '#' (by decide) hhash,
    replaceSubstr_no_occur _ _ t '#' (by decide) hhash,
    replaceSubstr_no_occur _ _ t '"' (by decide) hq]

/-- `nfkdChar` fixes letters and the space. -/
theorem nfkdChar_fix (c : Char)
    (h : ('a' ≤ c ∧ c ≤ 'z') ∨ c = ' ') : nfkdChar c = [c] := by
  rcases h with ⟨h1, h2⟩ | rfl
  · have hne : ∀ d : Char, 'z' < d → c ≠ d :=
      fun d hd he => absurd (he ▸ h2) (not_le.mpr hd)
    simp [nfkdChar, hne 'á' (by decide), hne 'à' (by decide),
      hne 'â' (by decide), hne 'ä' (by decide), hne 'ç' (by decide),
      hne 'é' (by decide), hne 'è' (by decide), hne 'ê' (by decide),
      hne 'ë' (by decide), hne 'í' (by decide), hne 'î' (by decide),
      hne 'ï' (by decide), hne 'ñ' (by decide), hne 'ó' (by decide),
      hne 'ô' (by decide), hne 'ö' (by decide), hne 'ú' (by decide),
      hne 'û' (by decide), hne 'ü' (by decide), hne 'ù' (by decide)]
  · decide

/-- `isMn` rejects letters and the space. -/
theorem isMn_fix (c : Char)
    (h : ('a' ≤ c ∧ c ≤ 'z') ∨ c = ' ') : isMn c = false := by
  rcases h with ⟨h1, h2⟩ | rfl
  · have hne : ∀ d : Char, 'z' < d → c ≠ d :=
      fun d hd he => absurd (he ▸ h2) (not_le.mpr hd)
    simp [isMn, hne '̀' (by decide), hne '́' (by decide),
      hne '̂' (by decide), hne '̃' (by decide), hne '̈' (by decide),
      hne '̧' (by decide)]
  · decide

/-- The NFKD-and-strip-marks stage fixes strings of letters and spaces. -/
theorem nfkdStripMarks_fix (t : List Char)
    (h : ∀ c ∈ t, ('a' ≤ c ∧ c ≤ 'z') ∨ c = ' ') :
    nfkdStripMarks t = t := by
  induction t with
  | nil => rfl
  | cons c cs ih =>
      have hc := h c (by simp)
      simp only [nfkdStripMarks, List.flatMap_cons, nfkdChar_fix c hc,
        List.filter_append] at ih ⊢
      rw [show List.filter (fun c => !isMn c) [c] = [c] from by
        simp [List.filter, isMn_fix c hc]]
      rw [ih (fun e he => h e (List.mem_cons_of_mem _ he))]
      rfl

/-- `collapseRunsAux` passes over a block of allowed characters. -/
theorem collapseRunsAux_allowed_append (allowed : Char → Bool) :
    ∀ (w : List Char), (∀ c ∈ w, allowed c = true) →
      ∀ (r : List Char),
        collapseRunsAux allowed false (w ++ r)
          = w ++ collapseRunsAux allowed false r := by
  intro w
  induction w with
  | nil =>
      intro _ r
      simp
  | cons c w' ih =>
      intro hw r
      rw [List.cons_append, collapseRunsAux, if_pos (hw c (by simp)),
        ih (fun e he => hw e (List.mem_cons_of_mem _ he)) r]
      rfl

/-- The run-collapsing flag is irrelevant before an allowed character. -/
theorem collapseRunsAux_any_flag (allowed : Char → Bool) (c : Char)
    (cs : List Char) (hc : allowed c = true) (b : Bool) :
    collapseRunsAux allowed b (c :: cs)
      = c :: collapseRunsAux allowed false cs := by
  cases b <;> simp [collapseRunsAux, hc]

/-- Run collapsing fixes a join of non-empty all-allowed words, when the
space is not allowed (each single separating space is its own run). -/
theorem collapseRuns_joinSp (allowed : Char → Bool)
    (hsp : allowed ' ' = false) :
    ∀ (ws : List (List Char)),
      (∀ w ∈ ws, w ≠ [] ∧ ∀ c ∈ w, allowed c = true) →
      collapseRuns allowed (joinSp ws) = joinSp ws := by
  intro ws
  induction ws with
  | nil =>
      intro _
      rfl
  | cons w rest ih =>
      intro hws
      rcases rest with _ | ⟨w', rest'⟩
      · show collapseRunsAux allowed false (joinSp [w]) = joinSp [w]
        rw [show joinSp [w] = w ++ [] from by simp [joinSp],
          collapseRunsAux_allowed_append allowed w (hws w (by simp)).2 []]
        rfl
      · show collapseRunsAux allowed false (joinSp (w :: w' :: rest'))
            = joinSp (w :: w' :: rest')
        rw [joinSp, collapseRunsAux_allowed_append allowed w (hws w (by simp)).2]
        rcases w' with _ | ⟨d, w''⟩
        · exact absurd rfl (hws [] (by simp)).1
        · obtain ⟨tl, htl⟩ := joinSp_cons_exists d w'' rest'
          have hd : allowed d = true :=
            (hws (d :: w'') (by simp)).2 d (by simp)
          rw [collapseRunsAux, if_neg (by simp [hsp]), if_neg (by simp)]
          rw [htl, collapseRunsAux_any_flag allowed d tl hd true,
            ← collapseRunsAux_any_flag allowed d tl hd false, ← htl]
          have ihh := ih (fun v hv => hws v (List.mem_cons_of_mem _ hv))
          simp only [collapseRuns] at ihh
          rw [ihh]

/-- Period-run collapsing fixes period-free strings, whatever the flag. -/
theorem collapseDotsAux_no_dot :
    ∀ (t : List Char), '.' ∉ t → ∀ (b : Bool), collapseDotsAux b t = t := by
  intro t
  induction t with
  | nil =>
      intro _ b
      rfl
  | cons c cs ih =>
      intro h b
      have hc : ¬ (c = '.') := fun he => h (he ▸ List.mem_cons_self _ _)
      rw [collapseDotsAux, if_neg hc,
        ih (fun hm => h (List.mem_cons_of_mem _ hm)) false]

/-- A letter or space fails the ASCII digit test. -/
theorem letter_space_not_digit (c : Char)
    (h : ('a' ≤ c ∧ c ≤ 'z') ∨ c = ' ') : ('0' ≤ c && c ≤ '9') = false := by
  rcases h with ⟨h1, _⟩ | rfl
  · have h9 : ¬ (c ≤ '9') := fun h9 => absurd (le_trans h1 h9) (by decide)
    simp [h9]
  · decide

/-- An ordinal fix pass is the identity on digit-free text. -/
theorem subOrd_no_digit (a b : Char) :
    ∀ (t : List Char), (∀ c ∈ t, ('0' ≤ c && c ≤ '9') = false) →
      subOrd a b t = t
  | [] => fun _ => rfl
  | [x] => fun _ => rfl
  | [x, y] => fun _ => rfl
  | d :: x :: y :: rest => fun h => by
      have hd := h d (by simp)
      rw [subOrd, if_neg (by simp [hd])]
      exact congrArg _ (subOrd_no_digit a b (x :: y :: rest)
        (fun c hc => h c (List.mem_cons_of_mem _ hc)))

/-- The whole ordinal-fix stage is the identity on digit-free text. -/
theorem ordinalFix_no_digit (t : List Char)
    (h : ∀ c ∈ t, ('0' ≤ c && c ≤ '9') = false) : ordinalFix t = t := by
  rw [ordinalFix, subOrd_no_digit 't' 'h' t h, subOrd_no_digit 's' 't' t h,
    subOrd_no_digit 'r' 'd' t h, subOrd_no_digit 'n' 'd' t h]

/-- Padding a character that does not occur is the identity. -/
theorem replaceChar_no_occur (c : Char) :
    ∀ (t : List Char), c ∉ t → replaceChar c t = t := by
  intro t
  induction t with
  | nil =>
      intro _
      rfl
  | cons d ds ih =>
      intro h
      have hd : ¬ (d = c) := fun he => h (he ▸ List.mem_cons_self _ _)
      rw [replaceChar, if_neg hd, ih (fun hm => h (List.mem_cons_of_mem _ hm))]

/-- Punctuation padding fixes strings containing no punctuation characters. -/
theorem padPunct_fix (t : List Char)
    (h : ∀ p ∈ punctuations, p ∉ t) : padPunct t = t := by
  have haux : ∀ (ps : List Char), (∀ p ∈ ps, p ∉ t) →
      ps.foldl (fun s c => replaceChar c s) t = t := by
    intro ps
    induction ps with
    | nil =>
        intro _
        rfl
    | cons p ps ih =>
        intro hps
        rw [List.foldl_cons, replaceChar_no_occur p t (hps p (by simp))]
        exact ih (fun q hq => hps q (List.mem_cons_of_mem _ hq))
  exact haux punctuations h

/-- Normalizing the empty string yields the empty string, whatever the
language and limit. -/
theorem preprocess_text_nil (L : Lang) (n : Int) :
    preprocess_text [] L n = [] := by
  have hc : cleanse [] L = [] := by cases L <;> rfl
  simp only [preprocess_text, hc]
  by_cases h : (((splitSp []).length : Int) > n)
  · rw [if_pos h]
  · rw [if_neg h]
    rfl

/-! ## Claim theorems -/

/-- C1 (code bug): the claim — backed by the spec — says every ASCII
lowercase letter is preserved by the step-4 character policy for `es`, `fr`
and `de`.  The `es`, `de` and `en` policies do keep `'a'`, but the `fr`
allow-list regex lacks the `a-z` range, so for `fr` the letter collapses to a
space and a plain ASCII word like `bonjour` is normalized to the empty
string. -/
theorem c1_character_policy_fr_drops_ascii :
    preprocess_text ['a'] Lang.es 50 = ['a'] ∧
    preprocess_text ['a'] Lang.de 50 = ['a'] ∧
    preprocess_text ['a'] Lang.en 50 = ['a'] ∧
    charPolicy Lang.fr ['a'] = [' '] ∧
    preprocess_text ['a'] Lang.fr 50 = [] ∧
    preprocess_text "bonjour".toList Lang.fr 50 = [] := by
  decide

/-- C5 (code bug): `identify_common_rare_words` computes the intersection of
the two rare-word sets into a local variable, but has no `return` statement,
so it returns `None` — despite its docstring and `List[str]` annotation.
With `xylophone` occurring exactly once in each corpus, the discarded local
does contain `xylophone`, yet the function's returned value is `None`, not a
set containing it. -/
theorem c5_common_rare_words_returns_none :
    (identify_common_rare_words [("xylophone".toList, 1)]
        [("xylophone".toList, 1)] [] []).1 = none ∧
    "xylophone".toList ∈ (identify_common_rare_words [("xylophone".toList, 1)]
        [("xylophone".toList, 1)] [] []).2 := by
  decide

/-- C6 (counterexample): `normalize("Hello,   World!!", "en", 10)` does not
produce `"hello , world !"` — the length check counts the fields of
`split(" ")` before empty fields are dropped, and padding the punctuation
inflates that count to 12 > 10, so the text is rejected. -/
theorem c6_example_counterexample :
    preprocess_text "Hello,   World!!".toList Lang.en 10 ≠
      "hello , world !".toList := by
  decide

/-- C6 (amended): `normalize("Hello,   World!!", "en", 10)` returns the empty
string, because the pre-filter field count is 12; with a limit of at least 12
the result is `"hello , world ! !"` — both exclamation marks are kept as
separate tokens, since only period runs are collapsed. -/
theorem c6_example_amended :
    preprocess_text "Hello,   World!!".toList Lang.en 10 = [] ∧
    (splitSp (cleanse "Hello,   World!!".toList Lang.en)).length = 12 ∧
    preprocess_text "Hello,   World!!".toList Lang.en 12 =
      "hello , world ! !".toList := by
  decide

/-- C9 (counterexample): the claim says a non-positive maximum word count is
rejected before any processing; but the source only checks
`isinstance(n_max_words_per_text, int)`, so the configuration check passes
with the non-positive limit 0. -/
theorem c9_nonpositive_limit_not_rejected :
    preprocess_dataset_config_ok "es".toList 0 = true := by
  decide

/-- C9 (amended): the configuration check accepts exactly the language codes
`es`, `fr`, `de` whatever the integer word limit (no positivity test exists);
a non-positive limit is not a configuration error — instead every text is
rejected during processing, since even the empty text splits into one field. -/
theorem c9_config_validation_amended :
    ∀ (language : List Char) (n : Int),
      (preprocess_dataset_config_ok language n = true ↔
        (language = "es".toList ∨ language = "fr".toList ∨ language = "de".toList)) ∧
      (∀ (text : List Char) (L : Lang), n ≤ 0 → preprocess_text text L n = []) := by
  intro language n
  constructor
  · simp only [preprocess_dataset_config_ok, check_language, isinstance_int,
      Bool.and_true, Bool.or_eq_true, beq_iff_eq]
    tauto
  · intro text L h
    exact preprocess_text_nonpos_limit text L n h

/-- Witness for C9's amended theorem at the configuration (`de`, −3). -/
theorem c9_config_validation_amended_witness :
    preprocess_dataset_config_ok "de".toList (-3) = true ∧
    preprocess_text "hi".toList Lang.en (-3) = [] :=
  ⟨(c9_config_validation_amended "de".toList (-3)).1.mpr (by decide),
   (c9_config_validation_amended "de".toList (-3)).2 "hi".toList Lang.en (by decide)⟩

/-- C10: for every language accepted by `check_language` and every integer
argument, the constructed object's `n_max_words_per_text` attribute is the
constant 50 — the constructor argument does not affect the stored limit. -/
theorem c10_constructor_stores_constant_50 :
    ∀ (language : List Char) (n : Int), check_language language = true →
      (PreprocessText.init language n).map (fun p => p.n_max_words_per_text) =
        some 50 := by
  intro language n h
  simp [PreprocessText.init, h]

/-- Witness for C10 at language `es` and argument 7. -/
theorem c10_constructor_stores_constant_50_witness :
    (PreprocessText.init "es".toList 7).map (fun p => p.n_max_words_per_text) =
      some 50 :=
  c10_constructor_stores_constant_50 "es".toList 7 (by decide)

/-- C2 (counterexample): a pair whose target side normalizes to empty is
rejected — it is not appended to the processed output — yet the accepted
English side's word `hello` has already been recorded in the frequency
table, so the table is not "mutated only on tokens of accepted pairs". -/
theorem c2_rejected_pair_still_records :
    (process_pair "hello".toList "".toList Lang.es 50 "tatoeba".toList
        ([("en".toList, []), ("es".toList, [])], [])).2 = [] ∧
    preprocess_text "".toList Lang.es 50 = [] ∧
    (process_pair "hello".toList "".toList Lang.es 50 "tatoeba".toList
        ([("en".toList, []), ("es".toList, [])], [])).1 =
      [("en".toList, [("hello".toList, 1)]), ("es".toList, [])] := by
  decide

/-- C2 (amended): when the pre-filter field count exceeds the limit the
normalizer returns the empty string and records nothing — rejection happens
before word counting; and a pair either of whose sides normalizes to empty is
not appended to the processed output.  (What fails in the original claim is
only the cross-side part: recording happens per side inside the normalizer,
so an accepted side's tokens are recorded even when the partner side is
rejected, as the counterexample shows.) -/
theorem c2_rejection_amended :
    ∀ (text en_text eu_text : List Char) (L : Lang) (n : Int) (b : Bool)
      (u : UniqueWordsCount) (ds : List Char)
      (st : UniqueWordsCount × List ProcessedPair),
      (((splitSp (cleanse text L)).length : Int) > n →
        preprocess_text_full text L n b u = ([], u)) ∧
      ((preprocess_text en_text Lang.en n = [] ∨ preprocess_text eu_text L n = []) →
        (process_pair en_text eu_text L n ds st).2 = st.2) := by
  intro text en_text eu_text L n b u ds st
  constructor
  · intro h
    simp only [preprocess_text_full]
    rw [if_pos h]
  · intro h
    simp only [process_pair]
    rw [if_neg]
    intro hc
    rcases h with h | h
    · exact hc.1 (by rw [preprocess_text_full_fst, h])
    · exact hc.2 (by rw [preprocess_text_full_fst, h])

/-- Witness for C2's amended theorem: a 12-field text is rejected at limit 10
with the table untouched, and a pair with an empty-normalizing side is not
appended. -/
theorem c2_rejection_amended_witness :
    preprocess_text_full "Hello,   World!!".toList Lang.en 10 true [] = ([], []) ∧
    (process_pair "hello".toList "".toList Lang.es 50 "tatoeba".toList
        ([("en".toList, []), ("es".toList, [])], [])).2 = [] :=
  ⟨(c2_rejection_amended "Hello,   World!!".toList [] [] Lang.en 10 true []
      [] ([], [])).1 (by decide),
   (c2_rejection_amended [] "hello".toList "".toList Lang.es 50 true []
      "tatoeba".toList ([("en".toList, []), ("es".toList, [])], [])).2
     (Or.inr (by decide))⟩

/-- C4: for a word-count table with duplicate-free keys, a word is placed in
the language's rare-word set iff its recorded count equals exactly 1, it
consists solely of alphabetic characters, and its length is strictly between
7 and 11; consequently the rare set is contained in the words of count
exactly 1. -/
theorem c4_rare_word_classification :
    ∀ (wc : WordTable) (w : List Char), (wc.map Prod.fst).Nodup →
      ((w ∈ identify_language_rare_words wc [] ↔
          (dictGet wc w = 1 ∧ pyIsalpha w = true ∧ 7 < w.length ∧ w.length < 11)) ∧
        (w ∈ identify_language_rare_words wc [] → dictGet wc w = 1)) := by
  intro wc w hnd
  have main : w ∈ identify_language_rare_words wc [] ↔
      (dictGet wc w = 1 ∧ pyIsalpha w = true ∧ 7 < w.length ∧ w.length < 11) := by
    rw [mem_identify_language_rare_words]
    simp only [List.not_mem_nil, false_or]
    constructor
    · rintro ⟨n, hmem, hcond⟩
      simp only [rare_condition, Bool.and_eq_true, beq_iff_eq,
        Bool.not_eq_true', decide_eq_true_eq] at hcond
      obtain ⟨⟨⟨⟨hn1, ha⟩, _⟩, h7⟩, h11⟩ := hcond
      subst hn1
      exact ⟨dictGet_of_mem wc w 1 hnd hmem, ha, h7, h11⟩
    · rintro ⟨h1, ha, h7, h11⟩
      refine ⟨1, ?_, ?_⟩
      · have hm := dictGet_mem_of_ne_zero wc w (by rw [h1]; exact one_ne_zero)
        rwa [h1] at hm
      · simp [rare_condition, ha, h7, h11, pyIsalpha_not_pyIsdigit w ha]
  exact ⟨main, fun hm => (main.mp hm).1⟩

/-- Witness for C4 at a one-entry table whose word, `polyglot`, is alphabetic
with count 1 and length 8. -/
theorem c4_rare_word_classification_witness :
    "polyglot".toList ∈ identify_language_rare_words [("polyglot".toList, 1)] [] :=
  ((c4_rare_word_classification [("polyglot".toList, 1)] "polyglot".toList
      (by decide)).1).mpr (by decide)

/-- C7 (spec-modelled: no shard-writing code exists under `src/`): for every
run, every flushed shard has the same number of `en` and target-language
lines; every shard except possibly the last holds exactly the capacity of
1,000,000 pairs; reading the shards back in order, line by line, recovers
exactly the accepted pairs in order (1:1 correspondence); and 1,000,001
accepted pairs produce shard sizes `[1000000, 1]`. -/
theorem c7_shard_invariants :
    ∀ (pairs : List (List Char × List Char)),
      (∀ s ∈ (runShardWriter pairs).flushed, s.1.length = s.2.length) ∧
      (∀ s ∈ (runShardWriter pairs).flushed.dropLast,
        s.1.length = shardCapacity) ∧
      ((runShardWriter pairs).flushed.flatMap (fun s => s.1.zip s.2) = pairs) ∧
      (pairs.length = 1000001 →
        (runShardWriter pairs).flushed.map (fun s => s.1.length) =
          [1000000, 1]) := by
  intro pairs
  have hrun : (runShardWriter pairs).flushed
      = (chunksOf pairs).map (fun c => (c.map Prod.fst, c.map Prod.snd)) := by
    have h0 : ShardWriter.empty
        = ⟨(([] : List (List Char × List Char)).map Prod.fst),
           (([] : List (List Char × List Char)).map Prod.snd), 0, []⟩ := by
      simp [ShardWriter.empty]
    rw [runShardWriter, h0, shardWriter_fold pairs [] 0 [] (by simp [shardCapacity])]
    simp
  refine ⟨?_, ?_, ?_, ?_⟩
  · intro s hs
    rw [hrun] at hs
    rcases List.mem_map.mp hs with ⟨c, _, rfl⟩
    simp
  · intro s hs
    rw [hrun, map_dropLast] at hs
    rcases List.mem_map.mp hs with ⟨c, hc, rfl⟩
    have := chunksOf_dropLast_bounded pairs.length pairs le_rfl c hc
    simpa using this
  · rw [hrun, List.flatMap_map]
    have : ∀ c : List (List Char × List Char),
        (c.map Prod.fst).zip (c.map Prod.snd) = c := by
      intro c
      rw [List.zip_map']
      simp
    simp only [this]
    simpa [List.flatMap_def] using chunksOf_flatten pairs
  · intro hlen
    rw [hrun, List.map_map]
    have : ((fun s : List (List Char) × List (List Char) => s.1.length) ∘
        (fun c : List (List Char × List Char) =>
          (c.map Prod.fst, c.map Prod.snd))) = List.length := by
      funext c
      simp
    rw [this]
    exact chunksOf_map_length_1000001 pairs hlen

/-- Witness for C7: the 1,000,001-pair example yields shard sizes
`[1000000, 1]`, and a one-pair run reads back as exactly that pair. -/
theorem c7_shard_invariants_witness :
    (runShardWriter (List.replicate 1000001 ("a".toList, "b".toList))).flushed.map
        (fun s => s.1.length) = [1000000, 1] ∧
    (runShardWriter [("a".toList, "b".toList)]).flushed.flatMap
        (fun s => s.1.zip s.2) = [("a".toList, "b".toList)] :=
  ⟨(c7_shard_invariants _).2.2.2 (List.length_replicate 1000001 _),
   (c7_shard_invariants _).2.2.1⟩

/-- C8: the Europarl adapter fails fatally — the length assertion precedes
the loop, so no pair of that source is processed — when the two line-aligned
files have different line counts, and the files are never truncated or
zipped short; with equal counts it processes exactly the pairs formed by
line index (the index loop is the fold over the zip of the two line lists). -/
theorem c8_europarl_alignment :
    ∀ (en_file eu_file : List Char) (L : Lang) (n : Int)
      (st : UniqueWordsCount × List ProcessedPair),
      ((splitNl en_file).length ≠ (splitNl eu_file).length →
        preprocess_europarl_dataset en_file eu_file L n st = none) ∧
      ((splitNl en_file).length = (splitNl eu_file).length →
        preprocess_europarl_dataset en_file eu_file L n st =
          some (((splitNl en_file).zip (splitNl eu_file)).foldl
            (fun acc p => process_pair p.1 p.2 L n "europarl".toList acc) st)) := by
  intro en_file eu_file L n st
  constructor
  · intro h
    simp only [preprocess_europarl_dataset]
    rw [if_neg h]
  · intro h
    simp only [preprocess_europarl_dataset]
    rw [if_pos h]
    exact congrArg some
      (range_foldl_zip (splitNl en_file) (splitNl eu_file) st
        (fun a b acc => process_pair a b L n "europarl".toList acc) h)

/-- Witness for C8: a two-line against one-line pair of files fails fatally,
and two aligned two-line files process both index-formed pairs. -/
theorem c8_europarl_alignment_witness :
    preprocess_europarl_dataset "a\nb".toList "c".toList Lang.es 50
        ([("en".toList, []), ("es".toList, [])], []) = none ∧
    preprocess_europarl_dataset "a\nb".toList "c\nd".toList Lang.es 50
        ([("en".toList, []), ("es".toList, [])], []) =
      some (((splitNl "a\nb".toList).zip (splitNl "c\nd".toList)).foldl
        (fun acc p => process_pair p.1 p.2 Lang.es 50 "europarl".toList acc)
        ([("en".toList, []), ("es".toList, [])], [])) :=
  ⟨(c8_europarl_alignment "a\nb".toList "c".toList Lang.es 50 _).1 (by decide),
   (c8_europarl_alignment "a\nb".toList "c\nd".toList Lang.es 50 _).2 (by decide)⟩

/-- C3 (counterexample): the normalizer is not idempotent.  `"a."` at limit 3
normalizes to `"a ."`; renormalizing `"a ."` re-pads the period, the split
then yields 4 fields (two of them empty), exceeding the limit, so the second
pass rejects the text and returns the empty string. -/
theorem c3_idempotence_counterexample :
    preprocess_text (preprocess_text "a.".toList Lang.en 3) Lang.en 3 ≠
      preprocess_text "a.".toList Lang.en 3 := by
  decide

/-- C3 (amended): idempotence as claimed fails — re-padding punctuation
inflates the pre-filter field count past the limit, so a second pass can
reject an already-normalized string (see the counterexample).  It does hold
on outputs consisting of ASCII lowercase letters and spaces, for the
languages whose character policy keeps ASCII letters (`en`, `es`, `de`;
`fr`'s policy drops them — see C1): renormalizing such an output with the
same language and limit returns it unchanged. -/
theorem c3_idempotence_amended :
    ∀ (s : List Char) (L : Lang) (n : Int), L ≠ Lang.fr →
      (∀ c ∈ preprocess_text s L n, ('a' ≤ c ∧ c ≤ 'z') ∨ c = ' ') →
      preprocess_text (preprocess_text s L n) L n = preprocess_text s L n := by
  intro s L n hfr hchars
  by_cases hrej : (((splitSp (cleanse s L)).length : Int) > n)
  · have hout : preprocess_text s L n = [] := by
      simp only [preprocess_text]
      rw [if_pos hrej]
    rw [hout]
    exact preprocess_text_nil L n
  · have hout : preprocess_text s L n =
        joinSp ((splitSp (cleanse s L)).filter (fun w => w ≠ [])) := by
      simp only [preprocess_text]
      rw [if_neg hrej]
    by_cases hnil : (splitSp (cleanse s L)).filter (fun w => w ≠ []) = []
    · rw [hout, hnil]
      show preprocess_text (joinSp []) L n = joinSp []
      exact preprocess_text_nil L n
    · have hW : ∀ w ∈ (splitSp (cleanse s L)).filter (fun w => w ≠ []),
          w ≠ [] ∧ (∀ c ∈ w, c ≠ ' ') ∧ (∀ c ∈ w, 'a' ≤ c ∧ c ≤ 'z') := by
        intro w hw
        have h1 : w ≠ [] := by simpa using List.of_mem_filter hw
        have h2 : ∀ c ∈ w, c ≠ ' ' :=
          fun c hc => splitSp_no_space _ w (List.mem_of_mem_filter hw) c hc
        refine ⟨h1, h2, ?_⟩
        intro c hc
        have hmem : c ∈ preprocess_text s L n := by
          rw [hout]
          exact mem_joinSp _ w hw c hc
        rcases hchars c hmem with h | h
        · exact h
        · exact absurd h (h2 c hc)
      have hchars' : ∀ c ∈ joinSp
            ((splitSp (cleanse s L)).filter (fun w => w ≠ [])),
          ('a' ≤ c ∧ c ≤ 'z') ∨ c = ' ' := by
        rw [← hout]
        exact hchars
      have hclean : cleanse
            (joinSp ((splitSp (cleanse s L)).filter (fun w => w ≠ []))) L
          = joinSp ((splitSp (cleanse s L)).filter (fun w => w ≠ [])) := by
        generalize hgen : (splitSp (cleanse s L)).filter (fun w => w ≠ []) = ws
          at hW hchars'
        have hrm : remove_html_markup (joinSp ws) = joinSp ws := by
          rw [remove_html_markup, splitWs_joinSp ws ?_]
          intro w hw
          exact ⟨(hW w hw).1, fun c hc =>
            letter_not_ws c ((hW w hw).2.2 c hc).1 ((hW w hw).2.2 c hc).2⟩
        have hlow : lowerStr (joinSp ws) = joinSp ws := lowerStr_fix _ hchars'
        have hstrip : pyStrip (joinSp ws) = joinSp ws :=
          pyStrip_joinSp ws (fun w hw => ⟨(hW w hw).1, (hW w hw).2.2⟩)
        have hsub : applySubstitutions (joinSp ws) = joinSp ws :=
          applySubstitutions_fix _ hchars'
        have hwords : ∀ (allowed : Char → Bool),
            (∀ c, 'a' ≤ c → c ≤ 'z' → allowed c = true) →
            ∀ w ∈ ws, w ≠ [] ∧ ∀ c ∈ w, allowed c = true := by
          intro allowed hall w hw
          exact ⟨(hW w hw).1, fun c hc =>
            hall c ((hW w hw).2.2 c hc).1 ((hW w hw).2.2 c hc).2⟩
        have hpol : charPolicy L (joinSp ws) = joinSp ws := by
          cases L with
          | en =>
              simp only [charPolicy]
              rw [nfkdStripMarks_fix _ hchars',
                collapseRuns_joinSp allowedEn (by decide) ws
                  (hwords allowedEn (fun c h1 h2 => by simp [allowedEn, h1, h2]))]
          | es =>
              simp only [charPolicy]
              rw [collapseRuns_joinSp allowedEs (by decide) ws
                (hwords allowedEs (fun c h1 h2 => by simp [allowedEs, h1, h2]))]
          | fr => exact absurd rfl hfr
          | de =>
              simp only [charPolicy]
              rw [collapseRuns_joinSp allowedDe (by decide) ws
                (hwords allowedDe (fun c h1 h2 => by simp [allowedDe, h1, h2]))]
        have hdots : collapseDots (joinSp ws) = joinSp ws := by
          rw [collapseDots]
          refine collapseDotsAux_no_dot _ ?_ false
          intro hc
          rcases hchars' '.' hc with ⟨h1, _⟩ | h
          · exact absurd h1 (by decide)
          · exact absurd h (by decide)
        have hord : ordinalFix (joinSp ws) = joinSp ws :=
          ordinalFix_no_digit _
            (fun c hc => letter_space_not_digit c (hchars' c hc))
        have hpad : padPunct (joinSp ws) = joinSp ws := by
          refine padPunct_fix _ ?_
          intro p hp hmem
          have hall : ∀ q ∈ punctuations, ¬ (('a' ≤ q ∧ q ≤ 'z') ∨ q = ' ') := by
            decide
          exact hall p hp (hchars' p hmem)
        simp only [cleanse]
        rw [hrm, hlow, hstrip, hsub, hpol, hdots, hord, hpad]
      rw [hout]
      simp only [preprocess_text, hclean]
      rw [splitSp_joinSp _ hnil (fun w hw => ⟨(hW w hw).1, (hW w hw).2.1⟩)]
      have hlen : ((((splitSp (cleanse s L)).filter
          (fun w => w ≠ [])).length : Int)) ≤ n := by
        have h1 := List.length_filter_le (fun w => w ≠ [])
          (splitSp (cleanse s L))
        push_neg at hrej
        omega
      rw [if_neg (not_lt.mpr hlen)]
      rw [List.filter_eq_self.mpr (fun w hw => by simp [(hW w hw).1])]

/-- Witness for C3's amended theorem at `hola`, `es`, limit 50. -/
theorem c3_idempotence_amended_witness :
    preprocess_text (preprocess_text "hola".toList Lang.es 50) Lang.es 50 =
      preprocess_text "hola".toList Lang.es 50 :=
  c3_idempotence_amended "hola".toList Lang.es 50 (by decide) (by decide)

end MT

